import Mathlib

/-!
Verification of the transclusion-toggler core (src/src/main.ts).

Lines of text are modelled as `List Char`; character offsets are `Nat`
indices into that list.  A document is a `List (List Char)` of lines, as
produced by `getValue().split('\n')`.

The JavaScript regex `/!?\[\[[^\]]+\]\]/g` is modelled by an explicit
matcher: at a position `i` the pattern matches iff an optional `'!'` is
followed by `"[["`, then a maximal run of one or more characters other
than `']'`, then `"]]"` (greedy `[^\]]+` with backtracking collapses to
exactly this condition).  The global scan repeatedly takes the leftmost
match at or after the current position and resumes after its end, exactly
as `RegExp.exec` with `lastIndex` does.
-/

namespace TT

/-- Editor position: 0-based line and character offset. -/
structure Pos where
  line : Nat
  ch : Nat
deriving DecidableEq, Repr

/-- The WikiLink record of main.ts. -/
structure WikiLink where
  fullText : List Char
  hasTransclusion : Bool
  path : List Char
  startLine : Nat
  startCh : Nat
  endCh : Nat
deriving DecidableEq, Repr

/-- One pending edit, as passed to `editor.replaceRange`. -/
structure Replacement where
  fromPos : Pos
  toPos : Pos
  text : List Char
deriving DecidableEq, Repr

/-- Length of the maximal run of characters other than `']'` starting at
index `i` (the greedy `[^\]]+` run, before the length-one check). -/
def runNonClose (s : List Char) (i : Nat) : Nat :=
  ((s.drop i).takeWhile (fun c => !(c = ']' : Bool))).length

/-- Length of a match of `\[\[[^\]]+\]\]` at index `i`, if any. -/
def bracketMatchLen (s : List Char) (i : Nat) : Option Nat :=
  if s.get? i = some '[' ∧ s.get? (i+1) = some '[' then
    if 1 ≤ runNonClose s (i+2) ∧ s.get? (i+2+runNonClose s (i+2)) = some ']' ∧
        s.get? (i+3+runNonClose s (i+2)) = some ']' then
      some (runNonClose s (i+2) + 4)
    else
      none
  else
    none

/-- Length of a match of the full pattern `!?\[\[[^\]]+\]\]` at index `i`.
When `s[i] = '!'` the greedy `!?` consumes it and the bracket part must
match from `i+1`; backtracking to the empty `!?` cannot succeed because
`'!' ≠ '['`. -/
def matchAt (s : List Char) (i : Nat) : Option Nat :=
  if s.get? i = some '!' then (bracketMatchLen s (i+1)).map (· + 1)
  else bracketMatchLen s i

/-- Index of the leftmost match at or after position `p`, if any
(`RegExp.exec` starting from `lastIndex = p`). -/
def nextMatchPos (s : List Char) (p : Nat) : Option Nat :=
  (List.range' p (s.length + 1 - p)).find? (fun q => (matchAt s q).isSome)

/-- Leftmost match at or after `p`, as a half-open range `(start, end)`. -/
def nextMatch (s : List Char) (p : Nat) : Option (Nat × Nat) :=
  (nextMatchPos s p).bind fun q => (matchAt s q).map fun len => (q, q + len)

/-- The global scan: repeatedly take the next match and resume after its
end.  `fuel` bounds the recursion; `s.length + 1` is always enough. -/
def scanFrom (s : List Char) : Nat → Nat → List (Nat × Nat)
  | 0, _ => []
  | fuel+1, p =>
    match nextMatch s p with
    | none => []
    | some (q, e) => (q, e) :: scanFrom s fuel e

/-- All match ranges of `/!?\[\[[^\]]+\]\]/g` in a line, left to right. -/
def scanLine (s : List Char) : List (Nat × Nat) :=
  scanFrom s (s.length + 1) 0

/-- The half-open slice `s[a..b)` (JS `line.slice(a, b)` semantics). -/
def slice (s : List Char) (a b : Nat) : List Char :=
  (s.take b).drop a

/-- JS `fullText.slice(a, -2)`. -/
def jsSliceNeg2 (s : List Char) (a : Nat) : List Char :=
  (s.take (s.length - 2)).drop a

/-- JS `fullText.startsWith('!')`. -/
def startsWithBang : List Char → Bool
  | '!' :: _ => true
  | _ => false

/-- `parseWikiLink` of main.ts: decompose a matched raw substring. -/
def parseWikiLink (fullText : List Char) (startCh endCh : Nat) : WikiLink :=
  let hasTransclusion := startsWithBang fullText
  { fullText := fullText
    hasTransclusion := hasTransclusion
    path := jsSliceNeg2 fullText (if hasTransclusion then 3 else 2)
    startLine := 0
    startCh := startCh
    endCh := endCh }

/-- `toggleLink` of main.ts: flip the embed marker. -/
def toggleLink (link : WikiLink) : List Char :=
  if link.hasTransclusion then
    '[' :: '[' :: (link.path ++ [']', ']'])
  else
    '!' :: '[' :: '[' :: (link.path ++ [']', ']'])

/-- `findAllLinksInLine` of main.ts. -/
def findAllLinksInLine (line : List Char) : List WikiLink :=
  (scanLine line).map fun m => parseWikiLink (slice line m.1 m.2) m.1 m.2

/-- The cursor-hit test of `findLinkAtCursor`: closed interval. -/
def linkContains (link : WikiLink) (c : Nat) : Bool :=
  decide (link.startCh ≤ c) && decide (c ≤ link.endCh)

/-- `findLinkAtCursor` of main.ts: first match whose closed interval
contains the cursor offset. -/
def findLinkAtCursor (line : List Char) (cursorCh : Nat) : Option WikiLink :=
  (findAllLinksInLine line).find? (fun l => linkContains l cursorCh)

/-- JS `fullText.split('\n')`: always at least one (possibly empty) part. -/
def splitLines : List Char → List (List Char)
  | [] => [[]]
  | c :: rest =>
    if c = '\n' then [] :: splitLines rest
    else
      match splitLines rest with
      | [] => [[c]]
      | l :: ls => (c :: l) :: ls

/-- JS `newLines.join('\n')`. -/
def joinLines : List (List Char) → List Char
  | [] => []
  | [l] => l
  | l :: ls => l ++ '\n' :: joinLines ls

/-- `Number.MAX_SAFE_INTEGER`. -/
def maxSafeInteger : Nat := 9007199254740991

/-- `startLine` of `toggleLinksInSelection`. -/
def selStartLine (anchor head : Pos) : Nat := min anchor.line head.line

/-- `endLine` of `toggleLinksInSelection`. -/
def selEndLine (anchor head : Pos) : Nat := max anchor.line head.line

/-- `startCh` of `toggleLinksInSelection`. -/
def selStartCh (anchor head : Pos) : Nat :=
  if anchor.line < head.line then anchor.ch else min anchor.ch head.ch

/-- `endCh` of `toggleLinksInSelection`. -/
def selEndCh (anchor head : Pos) : Nat :=
  if anchor.line < head.line then maxSafeInteger else max anchor.ch head.ch

/-- The selection-bounds filter of `toggleLinksInSelection`, applied to the
links of the line at index `li`. -/
def selectedInLine (anchor head : Pos) (li : Nat) (links : List WikiLink) :
    List WikiLink :=
  links.filter fun l =>
    if li = selStartLine anchor head ∧ li = selEndLine anchor head then
      decide (selStartCh anchor head ≤ l.startCh) &&
        decide (l.endCh ≤ selEndCh anchor head)
    else if li = selStartLine anchor head then
      decide (selStartCh anchor head ≤ l.startCh)
    else if li = selEndLine anchor head then
      decide (l.endCh ≤ selEndCh anchor head)
    else
      true

/-- The list of replacements pushed by `toggleLinksInSelection`: lines in
ascending order, tokens within a line in reverse (right-to-left) order. -/
def selectionReplacements (lines : List (List Char)) (anchor head : Pos) :
    List Replacement :=
  lines.enum.flatMap fun p =>
    if p.1 < selStartLine anchor head ∨ selEndLine anchor head < p.1 then []
    else
      ((selectedInLine anchor head p.1 (findAllLinksInLine p.2)).reverse).map
        fun l =>
          { fromPos := ⟨p.1, l.startCh⟩
            toPos := ⟨p.1, l.endCh⟩
            text := toggleLink l }

/-- `editor.replaceRange(text, f, t)` on a document given as a list of
lines: splice `text` between offset `f.ch` of line `f.line` and offset
`t.ch` of line `t.line`, re-splitting the affected region into lines. -/
def applyReplaceRange (lines : List (List Char)) (text : List Char)
    (f t : Pos) : List (List Char) :=
  let pre := (lines.getD f.line []).take f.ch
  let post := (lines.getD t.line []).drop t.ch
  lines.take f.line ++ splitLines (pre ++ text ++ post) ++ lines.drop (t.line + 1)

/-- `toggleLinksInSelection` end to end: apply each pushed replacement to
the live buffer in order. -/
def applySelection (lines : List (List Char)) (anchor head : Pos) :
    List (List Char) :=
  (selectionReplacements lines anchor head).foldl
    (fun ls r => applyReplaceRange ls r.text r.fromPos r.toPos) lines

/-- The forward loop of `findNearestLink`: iterate over the lines from the
cursor's line on (`rest = lines.drop i` initially with `i = cursorLine`).
On the cursor's line only links with `startCh >= cursorCh` qualify; on
later lines the first link is taken. -/
def fwdScan (cursorLine cursorCh : Nat) :
    List (List Char) → Nat → Option (Nat × WikiLink)
  | [], _ => none
  | line :: rest, i =>
    (((if i = cursorLine then
          (findAllLinksInLine line).find? (fun l => decide (cursorCh ≤ l.startCh))
        else (findAllLinksInLine line).head?)).map (fun l => (i, l))).or
      (fwdScan cursorLine cursorCh rest (i + 1))

/-- One iteration of the backward loop of `findNearestLink` at line `i`:
on the cursor's line, the rightmost link with `endCh <= cursorCh`; on any
other line, the last link. -/
def bwdLineHit (lines : List (List Char)) (cursorLine cursorCh i : Nat) :
    Option (Nat × WikiLink) :=
  (if i = cursorLine then
      ((findAllLinksInLine (lines.getD i [])).reverse).find?
        (fun l => decide (l.endCh ≤ cursorCh))
    else (findAllLinksInLine (lines.getD i [])).getLast?).map fun l => (i, l)

/-- The backward loop of `findNearestLink`: iterate `i` from the cursor's
line down to 0, first hit wins. -/
def bwdScan (lines : List (List Char)) (cursorLine cursorCh : Nat) :
    Nat → Option (Nat × WikiLink)
  | 0 => bwdLineHit lines cursorLine cursorCh 0
  | j + 1 =>
    (bwdLineHit lines cursorLine cursorCh (j + 1)).or
      (bwdScan lines cursorLine cursorCh j)

/-- `findNearestLink` of main.ts: full forward scan first; only when it
finds nothing, the backward scan runs. -/
def findNearestLink (lines : List (List Char)) (cursorLine cursorCh : Nat) :
    Option (Nat × WikiLink) :=
  match fwdScan cursorLine cursorCh (lines.drop cursorLine) cursorLine with
  | some r => some r
  | none => bwdScan lines cursorLine cursorCh cursorLine

/-- `toggleCurrentOrSelected` of main.ts, as a function from the document
(plus selection text, cursor, and selection endpoints) to the new
document. -/
def toggleCurrentOrSelected (lines : List (List Char)) (selection : List Char)
    (cursor anchor head : Pos) : List (List Char) :=
  if 0 < selection.length then
    applySelection lines anchor head
  else
    match findLinkAtCursor (lines.getD cursor.line []) cursor.ch with
    | some link =>
      applyReplaceRange lines (toggleLink link)
        ⟨cursor.line, link.startCh⟩ ⟨cursor.line, link.endCh⟩
    | none =>
      match findNearestLink lines cursor.line cursor.ch with
      | some r =>
        applyReplaceRange lines (toggleLink r.2)
          ⟨r.1, r.2.startCh⟩ ⟨r.1, r.2.endCh⟩
      | none => lines

/-- The per-line rewrite of `toggleAllLinks`: reverse the matches, then
splice each toggled text into the partially rewritten line at the original
offsets. -/
def toggleAllLine (line : List Char) : List Char :=
  ((findAllLinksInLine line).reverse).foldl
    (fun nl l => nl.take l.startCh ++ toggleLink l ++ nl.drop l.endCh) line

/-- The single whole-buffer replacement issued by `toggleAllLinks`. -/
def toggleAllReplacement (doc : List Char) : Replacement :=
  { fromPos := ⟨0, 0⟩
    toPos := ⟨(splitLines doc).length - 1,
      ((splitLines doc).getD ((splitLines doc).length - 1) []).length⟩
    text := joinLines ((splitLines doc).map toggleAllLine) }

/-- `toggleAllLinks` end to end: the new document after the replacement. -/
def toggleAllApply (doc : List Char) : List (List Char) :=
  applyReplaceRange (splitLines doc) (toggleAllReplacement doc).text
    (toggleAllReplacement doc).fromPos (toggleAllReplacement doc).toPos

/-- Chain invariant for match ranges: starts at or after `p`, each range
nonempty, within bound `n`, and each range ends before the next starts. -/
def chainFrom (n : Nat) : Nat → List (Nat × Nat) → Prop
  | _, [] => True
  | p, m :: ms => p ≤ m.1 ∧ m.1 < m.2 ∧ m.2 ≤ n ∧ chainFrom n m.2 ms

/-- Chain invariant for scanned links, on their `startCh`/`endCh` fields. -/
def linksChain (n : Nat) : Nat → List WikiLink → Prop
  | _, [] => True
  | p, l :: ls => p ≤ l.startCh ∧ l.startCh < l.endCh ∧ l.endCh ≤ n ∧
      linksChain n l.endCh ls

/-- The reference per-line rewrite: walk the (sorted) links left to right,
copying the text between them from the original line and replacing each
link's range by its toggled text.  All offsets refer to the original line. -/
def rebuildFrom (line : List Char) : Nat → List WikiLink → List Char
  | p, [] => line.drop p
  | p, l :: ls =>
      ((line.take l.startCh).drop p) ++ toggleLink l ++ rebuildFrom line l.endCh ls

/-- The raw text of a plain link token with path `p`. -/
def wrapLink (p : List Char) : List Char := ('[' :: '[' :: p) ++ [']', ']']

/-- The raw text of an embed token with path `p`. -/
def wrapEmbed (p : List Char) : List Char := ('!' :: '[' :: '[' :: p) ++ [']', ']']

/-- The forward-scan candidates as the spec describes them: first, the
tokens of the cursor's own line with `startOffset >= cursorCh` (in order);
then every token of every subsequent line, lines in ascending order,
tokens in ascending order.  The forward result is the head of this list. -/
def fwdCands (lines : List (List Char)) (cl cc : Nat) : List (Nat × WikiLink) :=
  ((findAllLinksInLine (lines.getD cl [])).filter
      (fun l => decide (cc ≤ l.startCh))).map (fun l => (cl, l))
    ++ (List.enumFrom (cl + 1) (lines.drop (cl + 1))).flatMap
        (fun p => (findAllLinksInLine p.2).map (fun l => (p.1, l)))

/-- The backward-scan candidates of one line, in right-to-left order: on
the cursor's line only tokens with `endOffset <= cursorCh`, on any other
line all tokens. -/
def bwdLineCands (lines : List (List Char)) (cl cc i : Nat) :
    List (Nat × WikiLink) :=
  if i = cl then
    (((findAllLinksInLine (lines.getD i [])).filter
        (fun l => decide (l.endCh ≤ cc))).reverse).map (fun l => (i, l))
  else
    ((findAllLinksInLine (lines.getD i [])).reverse).map (fun l => (i, l))

/-- The backward-scan candidates as the spec describes them: the cursor
line's qualifying tokens right to left, then each preceding line's tokens
right to left, lines in descending order.  The backward result is the
head of this list. -/
def bwdCands (lines : List (List Char)) (cl cc : Nat) : List (Nat × WikiLink) :=
  bwdLineCands lines cl cc cl
    ++ ((List.range cl).reverse).flatMap (bwdLineCands lines cl cc)

theorem find?_eq_head?_filter {α : Type} (p : α → Bool) (l : List α) :
    l.find? p = (l.filter p).head? := by
  induction l with
  | nil => rfl
  | cons a t ih =>
    simp only [List.find?, List.filter]
    split <;> simp_all

theorem matchAt_bounds {s : List Char} {i len : Nat}
    (h : matchAt s i = some len) : 0 < len ∧ i + len ≤ s.length := by
  have hb : ∀ j m, bracketMatchLen s j = some m → 0 < m ∧ j + m ≤ s.length := by
    intro j m hm
    unfold bracketMatchLen at hm
    split at hm
    · split at hm
      · rename_i hcond
        obtain ⟨hk, _hc1, hc2⟩ := hcond
        have hlt : j + 3 + runNonClose s (j+2) < s.length := by
          obtain ⟨h', _⟩ := List.get?_eq_some.mp hc2
          exact h'
        have hmv : m = runNonClose s (j+2) + 4 :=
          ((Option.some.injEq _ _).mp hm).symm
        omega
      · exact absurd hm (by simp)
    · exact absurd hm (by simp)
  unfold matchAt at h
  split at h
  · rcases Option.map_eq_some'.mp h with ⟨m, hm, hlen⟩
    have := hb _ _ hm
    omega
  · have := hb _ _ h
    omega

theorem nextMatch_spec {s : List Char} {p q e : Nat}
    (h : nextMatch s p = some (q, e)) : p ≤ q ∧ q < e ∧ e ≤ s.length := by
  unfold nextMatch at h
  rcases Option.bind_eq_some.mp h with ⟨q', hq', hrest⟩
  rcases Option.map_eq_some'.mp hrest with ⟨len, hlen, heq⟩
  obtain ⟨rfl, rfl⟩ : q' = q ∧ q' + len = e := by
    have := Prod.mk.injEq q' (q' + len) q e ▸ heq
    exact Prod.mk.inj heq
  have hmem := List.mem_of_find?_eq_some hq'
  rw [List.mem_range'] at hmem
  have hb := matchAt_bounds hlen
  omega

theorem scanFrom_chain (s : List Char) :
    ∀ fuel p, chainFrom s.length p (scanFrom s fuel p) := by
  intro fuel
  induction fuel with
  | zero => intro p; trivial
  | succ n ih =>
    intro p
    unfold scanFrom
    cases hnm : nextMatch s p with
    | none => trivial
    | some m =>
      obtain ⟨q, e⟩ := m
      have hs := nextMatch_spec hnm
      exact ⟨hs.1, hs.2.1, hs.2.2, ih e⟩

theorem chainFrom_map_links (line : List Char) :
    ∀ (ms : List (Nat × Nat)) (p : Nat), chainFrom line.length p ms →
      linksChain line.length p
        (ms.map fun m => parseWikiLink (slice line m.1 m.2) m.1 m.2) := by
  intro ms
  induction ms with
  | nil => intro p _; trivial
  | cons m t ih =>
    intro p hc
    obtain ⟨h1, h2, h3, h4⟩ := hc
    exact ⟨h1, h2, h3, ih m.2 h4⟩

theorem findAllLinks_chain (line : List Char) :
    linksChain line.length 0 (findAllLinksInLine line) :=
  chainFrom_map_links line _ 0 (scanFrom_chain line _ 0)

theorem linksChain_mem {n : Nat} :
    ∀ {ls : List WikiLink} {p : Nat}, linksChain n p ls →
      ∀ l ∈ ls, p ≤ l.startCh ∧ l.startCh < l.endCh ∧ l.endCh ≤ n := by
  intro ls
  induction ls with
  | nil => intro p _ l hl; cases hl
  | cons a t ih =>
    intro p hc l hl
    obtain ⟨h1, h2, h3, h4⟩ := hc
    rcases List.mem_cons.mp hl with rfl | hl
    · exact ⟨h1, h2, h3⟩
    · have := ih h4 l hl
      omega

theorem linksChain_pairwise {n : Nat} :
    ∀ {ls : List WikiLink} {p : Nat}, linksChain n p ls →
      List.Pairwise (fun a b => a.endCh ≤ b.startCh ∧ a.startCh < b.startCh) ls := by
  intro ls
  induction ls with
  | nil => intro p _; exact List.Pairwise.nil
  | cons a t ih =>
    intro p hc
    obtain ⟨h1, h2, h3, h4⟩ := hc
    refine List.Pairwise.cons ?_ (ih h4)
    intro b hb
    have := linksChain_mem h4 b hb
    omega

theorem foldr_splice (line : List Char) :
    ∀ (ls : List WikiLink) (p : Nat), linksChain line.length p ls →
      ((ls.foldr (fun l nl => nl.take l.startCh ++ toggleLink l ++ nl.drop l.endCh)
          line).drop p = rebuildFrom line p ls) ∧
      (∀ q, q ≤ p →
        (ls.foldr (fun l nl => nl.take l.startCh ++ toggleLink l ++ nl.drop l.endCh)
          line).take q = line.take q) := by
  intro ls
  induction ls with
  | nil =>
    intro p _
    exact ⟨rfl, fun q _ => rfl⟩
  | cons l t ih =>
    intro p hc
    obtain ⟨h1, h2, h3, h4⟩ := hc
    obtain ⟨ihdrop, ihtake⟩ := ih l.endCh h4
    set r := t.foldr
      (fun l nl => nl.take l.startCh ++ toggleLink l ++ nl.drop l.endCh) line with hr
    have hrt : r.take l.startCh = line.take l.startCh :=
      ihtake l.startCh (Nat.le_of_lt h2)
    have hlen : (r.take l.startCh).length = l.startCh := by
      rw [hrt, List.length_take]
      omega
    constructor
    · show (r.take l.startCh ++ toggleLink l ++ r.drop l.endCh).drop p = _
      rw [List.append_assoc, List.drop_append_of_le_length (by omega), ihdrop, hrt]
      simp [rebuildFrom, List.append_assoc]
    · intro q hq
      show (r.take l.startCh ++ toggleLink l ++ r.drop l.endCh).take q = _
      rw [List.append_assoc, List.take_append_of_le_length (by omega), hrt,
        List.take_take]
      congr 1
      omega

theorem toggleAllLine_eq_rebuild (line : List Char) :
    toggleAllLine line = rebuildFrom line 0 (findAllLinksInLine line) := by
  have h := (foldr_splice line (findAllLinksInLine line) 0
    (findAllLinks_chain line)).1
  simpa [toggleAllLine, List.foldl_reverse] using h

theorem parse_wrapLink (p : List Char) (s e : Nat) :
    parseWikiLink (wrapLink p) s e =
      { fullText := wrapLink p, hasTransclusion := false, path := p,
        startLine := 0, startCh := s, endCh := e } := by
  have hlen : (wrapLink p).length = p.length + 4 := by
    simp [wrapLink]
  have htake : (wrapLink p).take ((wrapLink p).length - 2) = '[' :: '[' :: p := by
    rw [hlen]
    show (('[' :: '[' :: p) ++ [']', ']']).take (p.length + 4 - 2) = _
    have : p.length + 4 - 2 = ('[' :: '[' :: p).length := by simp
    rw [this, List.take_left]
  simp only [parseWikiLink, startsWithBang, wrapLink, jsSliceNeg2] at htake ⊢
  simp_all [WikiLink.mk.injEq]

theorem parse_wrapEmbed (p : List Char) (s e : Nat) :
    parseWikiLink (wrapEmbed p) s e =
      { fullText := wrapEmbed p, hasTransclusion := true, path := p,
        startLine := 0, startCh := s, endCh := e } := by
  have hlen : (wrapEmbed p).length = p.length + 5 := by
    simp [wrapEmbed]
  have htake : (wrapEmbed p).take ((wrapEmbed p).length - 2) = '!' :: '[' :: '[' :: p := by
    rw [hlen]
    show (('!' :: '[' :: '[' :: p) ++ [']', ']']).take (p.length + 5 - 2) = _
    have : p.length + 5 - 2 = ('!' :: '[' :: '[' :: p).length := by simp
    rw [this, List.take_left]
  simp only [parseWikiLink, startsWithBang, wrapEmbed, jsSliceNeg2] at htake ⊢
  simp_all [WikiLink.mk.injEq]

/-- C6: for every line string, `findAllLinksInLine` returns tokens whose
`[startCh, endCh)` ranges are pairwise non-overlapping and sorted in
strictly ascending order of `startCh`. -/
theorem C6_findAllLinks_nonoverlapping_sorted (line : List Char) :
    List.Pairwise (fun a b => a.endCh ≤ b.startCh ∧ a.startCh < b.startCh)
      (findAllLinksInLine line) :=
  linksChain_pairwise (findAllLinks_chain line)

/-- C5: the full-document toggle issues exactly one replacement spanning
(line 0, offset 0) through (last line, end of last line), whose text
resolves every line in memory with all offsets taken against the
original, unmutated line content (`rebuildFrom`, which reads only the
original line, processing the sorted token list); and on the line
`![[Note A]] and ![[Note B]]` the result is `[[Note A]] and [[Note B]]`. -/
theorem C5_toggleAll_one_whole_buffer_replacement :
    (∀ doc : List Char,
      toggleAllReplacement doc =
        { fromPos := ⟨0, 0⟩
          toPos := ⟨(splitLines doc).length - 1,
            ((splitLines doc).getD ((splitLines doc).length - 1) []).length⟩
          text := joinLines ((splitLines doc).map
            (fun l => rebuildFrom l 0 (findAllLinksInLine l))) }) ∧
    toggleAllLine ("![[Note A]] and ![[Note B]]".toList)
      = "[[Note A]] and [[Note B]]".toList := by
  constructor
  · intro doc
    unfold toggleAllReplacement
    have : (splitLines doc).map toggleAllLine
        = (splitLines doc).map (fun l => rebuildFrom l 0 (findAllLinksInLine l)) :=
      List.map_congr_left (fun l _ => toggleAllLine_eq_rebuild l)
    rw [this]
  · rfl

/-- C3: for every valid token (any nonempty path without `]`, with or
without the embed marker), toggling, re-parsing the produced text, and
toggling again yields the original raw text exactly. -/
theorem C3_toggle_roundtrip (p : List Char) (hp : ']' ∉ p) (hne : p ≠ [])
    (raw : List Char) (hraw : raw = wrapLink p ∨ raw = wrapEmbed p)
    (s e s2 e2 : Nat) :
    toggleLink (parseWikiLink (toggleLink (parseWikiLink raw s e)) s2 e2)
      = raw := by
  rcases hraw with rfl | rfl
  · rw [parse_wrapLink]
    have h1 : toggleLink
        { fullText := wrapLink p, hasTransclusion := false, path := p,
          startLine := 0, startCh := s, endCh := e } = wrapEmbed p := by
      simp [toggleLink, wrapEmbed]
    rw [h1, parse_wrapEmbed]
    simp [toggleLink, wrapLink]
  · rw [parse_wrapEmbed]
    have h1 : toggleLink
        { fullText := wrapEmbed p, hasTransclusion := true, path := p,
          startLine := 0, startCh := s, endCh := e } = wrapLink p := by
      simp [toggleLink, wrapLink]
    rw [h1, parse_wrapLink]
    simp [toggleLink, wrapEmbed]

/-- Witness for C3 at a concrete token with a pipe alias, spaces and a
non-ASCII character in the path. -/
theorem C3_toggle_roundtrip_witness :
    ']' ∉ "Nöte A|alias".toList ∧ "Nöte A|alias".toList ≠ [] ∧
    toggleLink (parseWikiLink (toggleLink (parseWikiLink
        (wrapLink ("Nöte A|alias".toList)) 3 17)) 3 18)
      = wrapLink ("Nöte A|alias".toList) := by
  refine ⟨by decide, by decide, ?_⟩
  exact C3_toggle_roundtrip ("Nöte A|alias".toList) (by decide) (by decide)
    (wrapLink ("Nöte A|alias".toList)) (Or.inl rfl) 3 17 3 18

theorem findAllLinks_nil : findAllLinksInLine [] = [] := rfl

theorem getD_no_links {lines : List (List Char)}
    (hl : ∀ l ∈ lines, findAllLinksInLine l = []) (i : Nat) :
    findAllLinksInLine (lines.getD i []) = [] := by
  by_cases h : i < lines.length
  · have : lines.getD i [] = lines[i] := by
      simp [List.getD, List.getElem?_eq_getElem h]
    rw [this]
    exact hl _ (List.getElem_mem h)
  · have : lines.getD i [] = [] := by
      simp [List.getD, List.getElem?_eq_none (by omega : lines.length ≤ i)]
    rw [this]
    rfl

theorem fwdScan_no_links (cl cc : Nat) :
    ∀ (rest : List (List Char)), (∀ l ∈ rest, findAllLinksInLine l = []) →
      ∀ i, fwdScan cl cc rest i = none := by
  intro rest
  induction rest with
  | nil => intro _ i; rfl
  | cons line t ih =>
    intro hl i
    have h0 : findAllLinksInLine line = [] := hl line (by simp)
    unfold fwdScan
    rw [h0]
    simp only [List.find?_nil, List.head?_nil]
    have : (if i = cl then (none : Option WikiLink) else none) = none := by
      split <;> rfl
    rw [this]
    exact ih (fun l hm => hl l (by simp [hm])) (i + 1)

theorem bwdScan_no_links {lines : List (List Char)} (cl cc : Nat)
    (hl : ∀ l ∈ lines, findAllLinksInLine l = []) :
    ∀ i, bwdScan lines cl cc i = none := by
  have hhit : ∀ i, bwdLineHit lines cl cc i = none := by
    intro i
    unfold bwdLineHit
    rw [getD_no_links hl i]
    simp only [List.reverse_nil, List.find?_nil, List.getLast?_nil]
    split <;> rfl
  intro i
  induction i with
  | zero => simp [bwdScan, hhit 0]
  | succ j ih =>
    unfold bwdScan
    rw [hhit (j + 1)]
    exact ih

theorem findNearestLink_no_links {lines : List (List Char)} (cl cc : Nat)
    (hl : ∀ l ∈ lines, findAllLinksInLine l = []) :
    findNearestLink lines cl cc = none := by
  unfold findNearestLink
  rw [fwdScan_no_links cl cc (lines.drop cl)
    (fun l hm => hl l (List.mem_of_mem_drop hm)) cl]
  exact bwdScan_no_links cl cc hl cl

theorem selectionReplacements_no_links {lines : List (List Char)}
    (hl : ∀ l ∈ lines, findAllLinksInLine l = []) (anchor head : Pos) :
    selectionReplacements lines anchor head = [] := by
  unfold selectionReplacements
  apply List.flatMap_eq_nil_iff.mpr
  intro p hp
  have h0 : findAllLinksInLine p.2 = [] := hl p.2 (List.snd_mem_of_mem_enum hp)
  rw [h0]
  simp [selectedInLine]

theorem toggleCurrentOrSelected_no_links {lines : List (List Char)}
    (hl : ∀ l ∈ lines, findAllLinksInLine l = [])
    (selection : List Char) (cursor anchor head : Pos) :
    toggleCurrentOrSelected lines selection cursor anchor head = lines := by
  unfold toggleCurrentOrSelected
  split
  · unfold applySelection
    rw [selectionReplacements_no_links hl anchor head]
    rfl
  · rw [show findLinkAtCursor (lines.getD cursor.line []) cursor.ch = none by
      unfold findLinkAtCursor
      rw [getD_no_links hl cursor.line]
      rfl]
    rw [findNearestLink_no_links cursor.line cursor.ch hl]

theorem splitLines_ne_nil : ∀ doc : List Char, splitLines doc ≠ [] := by
  intro doc
  cases doc with
  | nil => simp [splitLines]
  | cons c rest =>
    unfold splitLines
    split
    · simp
    · cases h : splitLines rest <;> simp

theorem joinLines_splitLines : ∀ doc : List Char, joinLines (splitLines doc) = doc := by
  intro doc
  induction doc with
  | nil => rfl
  | cons c rest ih =>
    unfold splitLines
    by_cases hc : c = '\n'
    · rw [if_pos hc]
      cases h : splitLines rest with
      | nil => exact absurd h (splitLines_ne_nil rest)
      | cons l ls =>
        show '\n' :: joinLines (l :: ls) = c :: rest
        rw [← h, ih, hc]
    · rw [if_neg hc]
      cases h : splitLines rest with
      | nil => exact absurd h (splitLines_ne_nil rest)
      | cons l ls =>
        cases ls with
        | nil =>
          show c :: l = c :: rest
          have hrest : l = rest := by
            have := ih
            rw [h] at this
            exact this
          rw [hrest]
        | cons l2 ls2 =>
          show (c :: l) ++ '\n' :: joinLines (l2 :: ls2) = c :: rest
          rw [List.cons_append]
          have hrest : l ++ '\n' :: joinLines (l2 :: ls2) = rest := by
            have := ih
            rw [h] at this
            exact this
          rw [hrest]

theorem applyReplaceRange_whole (lines : List (List Char)) (text : List Char)
    (hne : lines ≠ []) :
    applyReplaceRange lines text ⟨0, 0⟩
        ⟨lines.length - 1, (lines.getD (lines.length - 1) []).length⟩
      = splitLines text := by
  have hpos : 1 ≤ lines.length := List.length_pos.mpr hne
  unfold applyReplaceRange
  dsimp only
  rw [List.take_zero, List.drop_length, List.take_zero,
    Nat.sub_add_cancel hpos, List.drop_length]
  simp

theorem selectionReplacements_no_selected {lines : List (List Char)}
    (anchor head : Pos)
    (hsel : ∀ i, selStartLine anchor head ≤ i → i ≤ selEndLine anchor head →
      selectedInLine anchor head i (findAllLinksInLine (lines.getD i [])) = []) :
    selectionReplacements lines anchor head = [] := by
  unfold selectionReplacements
  apply List.flatMap_eq_nil_iff.mpr
  intro p hp
  by_cases hin : p.1 < selStartLine anchor head ∨ selEndLine anchor head < p.1
  · rw [if_pos hin]
  · rw [if_neg hin]
    have hgd : lines.getD p.1 [] = p.2 := by
      have hq := List.mem_enum_iff_getElem?.mp hp
      rw [List.getD_eq_getElem?_getD, hq]
      rfl
    rw [← hgd, hsel p.1 (by omega) (by omega)]
    rfl

theorem toggleAllLine_no_links {line : List Char}
    (h : findAllLinksInLine line = []) : toggleAllLine line = line := by
  unfold toggleAllLine
  rw [h]
  rfl

/-- C8: every scan/resolve operation is total and returns "no match" on
degenerate input (empty line, unmatched single brackets); absence of any
target token is a no-op outcome in all three modes: cursor (no hit, no
nearest token), selection (a nonempty selection whose bounds contain no
token, even when tokens exist elsewhere in the document), and whole
document ("toggle all" on a token-free document issues a replacement
whose text is the unchanged buffer and leaves the document as it was); in
particular "toggle all" on the empty document produces the empty
document. -/
theorem C8_totality_and_noop :
    (findAllLinksInLine [] = [] ∧ (∀ c, findLinkAtCursor [] c = none) ∧
      findAllLinksInLine ("[[abc".toList) = [] ∧
      findAllLinksInLine ("[abc]".toList) = [] ∧
      findAllLinksInLine ("a [ b ] c".toList) = []) ∧
    (∀ (lines : List (List Char)) (cursor anchor head : Pos),
      findLinkAtCursor (lines.getD cursor.line []) cursor.ch = none →
      findNearestLink lines cursor.line cursor.ch = none →
      toggleCurrentOrSelected lines [] cursor anchor head = lines) ∧
    (∀ (lines : List (List Char)) (selection : List Char)
        (cursor anchor head : Pos),
      0 < selection.length →
      (∀ i, selStartLine anchor head ≤ i → i ≤ selEndLine anchor head →
        selectedInLine anchor head i
          (findAllLinksInLine (lines.getD i [])) = []) →
      toggleCurrentOrSelected lines selection cursor anchor head = lines) ∧
    (∀ doc : List Char, (∀ l ∈ splitLines doc, findAllLinksInLine l = []) →
      (toggleAllReplacement doc).text = doc ∧
        toggleAllApply doc = splitLines doc) ∧
    (toggleAllApply [] = [[]] ∧ joinLines (toggleAllApply []) = []) := by
  refine ⟨⟨rfl, fun c => rfl, rfl, rfl, rfl⟩, ?_, ?_, ?_, by decide, by decide⟩
  · intro lines cursor anchor head hcur hnear
    unfold toggleCurrentOrSelected
    simp only [List.length_nil, Nat.lt_irrefl, if_false, hcur, hnear]
  · intro lines selection cursor anchor head hsel hnone
    unfold toggleCurrentOrSelected
    rw [if_pos hsel]
    unfold applySelection
    rw [selectionReplacements_no_selected anchor head hnone]
    rfl
  · intro doc hdoc
    have hmap : (splitLines doc).map toggleAllLine = splitLines doc := by
      have h1 : (splitLines doc).map toggleAllLine = (splitLines doc).map id :=
        List.map_congr_left (fun l hl => (toggleAllLine_no_links (hdoc l hl)))
      rw [h1, List.map_id]
    have htext : (toggleAllReplacement doc).text = doc := by
      show joinLines ((splitLines doc).map toggleAllLine) = doc
      rw [hmap, joinLines_splitLines]
    refine ⟨htext, ?_⟩
    show applyReplaceRange (splitLines doc) (toggleAllReplacement doc).text
      (toggleAllReplacement doc).fromPos (toggleAllReplacement doc).toPos
        = splitLines doc
    rw [show (toggleAllReplacement doc).fromPos = ⟨0, 0⟩ from rfl,
      show (toggleAllReplacement doc).toPos
        = ⟨(splitLines doc).length - 1,
            ((splitLines doc).getD ((splitLines doc).length - 1) []).length⟩
        from rfl,
      applyReplaceRange_whole (splitLines doc) _ (splitLines_ne_nil doc),
      htext]

/-- Witness for C8's no-target no-ops: cursor miss with no nearest token;
a nonempty selection over a token-free character range of a line that
does contain a token; toggle-all over a multi-line token-free document. -/
theorem C8_totality_and_noop_witness :
    toggleCurrentOrSelected ["nothing".toList] [] ⟨0, 3⟩ ⟨0, 0⟩ ⟨0, 0⟩
        = ["nothing".toList] ∧
    toggleCurrentOrSelected ["x [[a]] y".toList] ("x".toList) ⟨0, 0⟩
        ⟨0, 0⟩ ⟨0, 1⟩ = ["x [[a]] y".toList] ∧
    (toggleAllReplacement ("no links\nhere".toList)).text
        = "no links\nhere".toList := by
  refine ⟨?_, ?_, ?_⟩
  · exact C8_totality_and_noop.2.1 ["nothing".toList] ⟨0, 3⟩ ⟨0, 0⟩ ⟨0, 0⟩
      (by decide) (by decide)
  · refine C8_totality_and_noop.2.2.1 ["x [[a]] y".toList] ("x".toList)
      ⟨0, 0⟩ ⟨0, 0⟩ ⟨0, 1⟩ (by decide) ?_
    intro i h1 h2
    match i with
    | 0 => decide
    | j + 1 =>
      rw [show selEndLine ⟨0, 0⟩ ⟨0, 1⟩ = 0 from rfl] at h2
      exact absurd h2 (by omega)
  · exact (C8_totality_and_noop.2.2.2.1 ("no links\nhere".toList)
      (by decide)).1

/-- C10: the scanners never recognize a bracket pair with an empty path:
`findAllLinksInLine` on `[[]]` returns the empty list, `findLinkAtCursor`
returns none at every offset, and the documents `[[]]` and `![[]]` are
left unchanged by the current/selected command (for every selection,
cursor and selection endpoints) and by the toggle-all command. -/
theorem C10_empty_path_never_recognized :
    (findAllLinksInLine ("[[]]".toList) = [] ∧
      findAllLinksInLine ("![[]]".toList) = []) ∧
    (∀ c, findLinkAtCursor ("[[]]".toList) c = none ∧
      findLinkAtCursor ("![[]]".toList) c = none) ∧
    (∀ (selection : List Char) (cursor anchor head : Pos),
      toggleCurrentOrSelected ["[[]]".toList] selection cursor anchor head
        = ["[[]]".toList] ∧
      toggleCurrentOrSelected ["![[]]".toList] selection cursor anchor head
        = ["![[]]".toList]) ∧
    (toggleAllApply ("[[]]".toList) = ["[[]]".toList] ∧
      toggleAllApply ("![[]]".toList) = ["![[]]".toList]) := by
  have h1 : ∀ l ∈ [("[[]]".toList : List Char)], findAllLinksInLine l = [] := by
    decide
  have h2 : ∀ l ∈ [("![[]]".toList : List Char)], findAllLinksInLine l = [] := by
    decide
  refine ⟨⟨rfl, rfl⟩, fun c => ⟨rfl, rfl⟩, ?_, by decide, by decide⟩
  intro selection cursor anchor head
  exact ⟨toggleCurrentOrSelected_no_links h1 selection cursor anchor head,
    toggleCurrentOrSelected_no_links h2 selection cursor anchor head⟩

theorem splitLines_no_newline :
    ∀ {l : List Char}, '\n' ∉ l → splitLines l = [l] := by
  intro l
  induction l with
  | nil => intro _; rfl
  | cons c rest ih =>
    intro hl
    have hc : ¬ (c = '\n') := fun hc => hl (by simp [hc])
    have hrest : splitLines rest = [rest] := ih (fun hm => hl (by simp [hm]))
    unfold splitLines
    rw [if_neg hc, hrest]

theorem findAllLinks_mem_props {line : List Char} {link : WikiLink}
    (h : link ∈ findAllLinksInLine line) :
    link.fullText = slice line link.startCh link.endCh ∧
    link.startCh < link.endCh ∧ link.endCh ≤ line.length := by
  have hb := linksChain_mem (findAllLinks_chain line) link h
  rcases List.mem_map.mp h with ⟨m, _hm, rfl⟩
  exact ⟨rfl, hb.2.1, hb.2.2⟩

theorem path_subset_fullText {link : WikiLink} {line : List Char}
    (h : link ∈ findAllLinksInLine line) : ∀ c ∈ link.path, c ∈ line := by
  rcases List.mem_map.mp h with ⟨m, _hm, rfl⟩
  intro c hc
  simp only [parseWikiLink, jsSliceNeg2] at hc
  have h1 : c ∈ slice line m.1 m.2 :=
    List.mem_of_mem_take (List.mem_of_mem_drop hc)
  simp only [slice] at h1
  exact List.mem_of_mem_take (List.mem_of_mem_drop h1)

theorem toggleLink_no_newline {link : WikiLink} {line : List Char}
    (h : link ∈ findAllLinksInLine line) (hnl : '\n' ∉ line) :
    '\n' ∉ toggleLink link := by
  intro hm
  have hp : '\n' ∈ link.path := by
    unfold toggleLink at hm
    split at hm <;> simp [List.mem_append, List.mem_cons] at hm <;> exact hm
  exact hnl (path_subset_fullText h '\n' hp)

/-- C9: with an empty selection and a cursor hit, the current/selected
command changes only the replaced token's range on the cursor's line:
every other line is unchanged (and the line count is preserved), the
cursor line's text before `startCh` is unchanged, and its text from the
end of the inserted replacement on equals the original text from
`endCh` on. -/
theorem C9_cursor_toggle_frame (lines : List (List Char))
    (cursor anchor head : Pos) (link : WikiLink)
    (hcl : cursor.line < lines.length)
    (hnl : '\n' ∉ lines.getD cursor.line [])
    (hhit : findLinkAtCursor (lines.getD cursor.line []) cursor.ch = some link) :
    (toggleCurrentOrSelected lines [] cursor anchor head).length = lines.length ∧
    (∀ i, i ≠ cursor.line →
      (toggleCurrentOrSelected lines [] cursor anchor head).getD i []
        = lines.getD i []) ∧
    ((toggleCurrentOrSelected lines [] cursor anchor head).getD cursor.line
        []).take link.startCh
      = (lines.getD cursor.line []).take link.startCh ∧
    ((toggleCurrentOrSelected lines [] cursor anchor head).getD cursor.line
        []).drop (link.startCh + (toggleLink link).length)
      = (lines.getD cursor.line []).drop link.endCh := by
  have hmem : link ∈ findAllLinksInLine (lines.getD cursor.line []) :=
    List.mem_of_find?_eq_some hhit
  obtain ⟨_hft, hse, hel⟩ := findAllLinks_mem_props hmem
  have hnl2 : '\n' ∉ (lines.getD cursor.line []).take link.startCh
      ++ toggleLink link ++ (lines.getD cursor.line []).drop link.endCh := by
    intro hm
    rcases List.mem_append.mp hm with hm | hm
    · rcases List.mem_append.mp hm with hm | hm
      · exact hnl (List.mem_of_mem_take hm)
      · exact toggleLink_no_newline hmem hnl hm
    · exact hnl (List.mem_of_mem_drop hm)
  have hnew : toggleCurrentOrSelected lines [] cursor anchor head
      = lines.take cursor.line
          ++ [(lines.getD cursor.line []).take link.startCh ++ toggleLink link
              ++ (lines.getD cursor.line []).drop link.endCh]
          ++ lines.drop (cursor.line + 1) := by
    unfold toggleCurrentOrSelected
    rw [if_neg (by simp)]
    rw [hhit]
    show applyReplaceRange lines (toggleLink link)
      ⟨cursor.line, link.startCh⟩ ⟨cursor.line, link.endCh⟩ = _
    unfold applyReplaceRange
    dsimp only
    rw [splitLines_no_newline hnl2]
  have hprelen : ((lines.getD cursor.line []).take link.startCh).length
      = link.startCh := by
    rw [List.length_take]
    omega
  have htlen : (lines.take cursor.line).length = cursor.line := by
    rw [List.length_take]
    omega
  have hmid : (lines.take cursor.line
      ++ [(lines.getD cursor.line []).take link.startCh ++ toggleLink link
          ++ (lines.getD cursor.line []).drop link.endCh]
      ++ lines.drop (cursor.line + 1)).getD cursor.line []
      = (lines.getD cursor.line []).take link.startCh ++ toggleLink link
          ++ (lines.getD cursor.line []).drop link.endCh := by
    rw [List.getD_eq_getElem?_getD, List.append_assoc, List.getElem?_append]
    rw [htlen, if_neg (by omega), Nat.sub_self]
    simp
  rw [hnew]
  refine ⟨?_, ?_, ?_, ?_⟩
  · simp
    omega
  · intro i hi
    rw [List.getD_eq_getElem?_getD, List.getD_eq_getElem?_getD]
    rcases Nat.lt_or_ge i cursor.line with hlt | hge
    · rw [List.append_assoc, List.getElem?_append, htlen, if_pos hlt,
        List.getElem?_take, if_pos hlt]
      rw [List.getD_eq_getElem?_getD]
    · have hgt : cursor.line + 1 ≤ i := by omega
      rw [List.append_assoc, List.getElem?_append, htlen, if_neg (by omega),
        List.cons_append, List.nil_append, List.getElem?_cons,
        if_neg (by omega), List.getElem?_drop]
      have hidx : cursor.line + 1 + (i - cursor.line - 1) = i := by omega
      rw [hidx, List.getD_eq_getElem?_getD]
  · rw [hmid, List.append_assoc,
      List.take_append_of_le_length (le_of_eq hprelen.symm)]
    rw [List.take_take]
    congr 1
    omega
  · rw [hmid]
    have harr : ((lines.getD cursor.line []).take link.startCh ++ toggleLink link
        ++ (lines.getD cursor.line []).drop link.endCh).drop
        (link.startCh + (toggleLink link).length)
        = (((lines.getD cursor.line []).take link.startCh ++ toggleLink link)
            ++ (lines.getD cursor.line []).drop link.endCh).drop
          ((lines.getD cursor.line []).take link.startCh ++ toggleLink link).length := by
      congr 1
      rw [List.length_append, hprelen]
    rw [harr, List.drop_left]

/-- Witness for C9 at a concrete single-line document. -/
theorem C9_cursor_toggle_frame_witness :
    ((toggleCurrentOrSelected ["ab [[x]] cd".toList] [] ⟨0, 5⟩ ⟨0, 0⟩ ⟨0, 0⟩).getD 0
        []).take 3 = ("ab [[x]] cd".toList).take 3 := by
  have h := C9_cursor_toggle_frame ["ab [[x]] cd".toList] ⟨0, 5⟩ ⟨0, 0⟩ ⟨0, 0⟩
    (parseWikiLink ("[[x]]".toList) 3 8) (by decide) (by decide) (by decide)
  exact h.2.2.1

/-- C7 counterexample: on the line `[[a]][[b]]` the offset 5 is exactly the
second token's `startOffset` (and the first token's `endOffset`), but
`findLinkAtCursor` returns the first token, not the second one, so the
claim "findLinkAtCursor returns that token" fails for the second token. -/
theorem C7_closed_interval_counterexample :
    parseWikiLink ("[[b]]".toList) 5 10
        ∈ findAllLinksInLine ("[[a]][[b]]".toList) ∧
    (parseWikiLink ("[[b]]".toList) 5 10).startCh = 5 ∧
    findLinkAtCursor ("[[a]][[b]]".toList) 5
        = some (parseWikiLink ("[[a]]".toList) 0 5) ∧
    findLinkAtCursor ("[[a]][[b]]".toList) 5
        ≠ some (parseWikiLink ("[[b]]".toList) 5 10) := by
  decide

/-- C7 amended: a cursor offset exactly at a token's `startOffset` or
`endOffset` counts as inside (closed-interval hit test), so
`findLinkAtCursor` succeeds and returns a token whose closed interval
contains the cursor — the first such token in left-to-right order, which
is the given token itself except when the cursor also lies on the closed
interval of an earlier token (e.g. the shared boundary of two adjacent
tokens). -/
theorem C7_closed_interval_boundary (line : List Char) (c : Nat) (t : WikiLink)
    (hmem : t ∈ findAllLinksInLine line)
    (hb : c = t.startCh ∨ c = t.endCh) :
    ∃ r, findLinkAtCursor line c = some r ∧ r.startCh ≤ c ∧ c ≤ r.endCh := by
  have hse : t.startCh < t.endCh := (findAllLinks_mem_props hmem).2.1
  have ht : linkContains t c := by
    unfold linkContains
    rcases hb with rfl | rfl <;> simp <;> omega
  have hsome : (findLinkAtCursor line c).isSome := by
    unfold findLinkAtCursor
    rw [List.find?_isSome]
    exact ⟨t, hmem, ht⟩
  rcases Option.isSome_iff_exists.mp hsome with ⟨r, hr⟩
  have hcont := List.find?_some hr
  unfold linkContains at hcont
  simp at hcont
  exact ⟨r, hr, hcont.1, hcont.2⟩

/-- Witness for C7 amended at a token whose boundary is shared with no
other token. -/
theorem C7_closed_interval_boundary_witness :
    ∃ r, findLinkAtCursor ("x [[a]] y".toList) 2 = some r ∧
      r.startCh ≤ 2 ∧ 2 ≤ r.endCh :=
  C7_closed_interval_boundary ("x [[a]] y".toList) 2
    (parseWikiLink ("[[a]]".toList) 2 7) (by decide) (Or.inl (by decide))

/-- C1 counterexample: forward multi-line selection from (0,0) to (1,1).
The token on the last line ends at offset 8, after the selection's end
character 1, yet its replacement is pushed. -/
theorem C1_last_line_counterexample :
    ({ fromPos := ⟨1, 3⟩, toPos := ⟨1, 8⟩,
       text := toggleLink (parseWikiLink ("[[x]]".toList) 3 8) } : Replacement)
        ∈ selectionReplacements ["ab".toList, "cd [[x]] z".toList] ⟨0, 0⟩ ⟨1, 1⟩ ∧
    ¬ ((parseWikiLink ("[[x]]".toList) 3 8).endCh ≤ (⟨1, 1⟩ : Pos).ch) := by
  decide

/-- C1 amended: the last-line filter compares `endOffset` against the
normalized `endCh`, which is the selection's end character only for
backward selections (`max(anchor.ch, head.ch)`); for a forward multi-line
selection (`anchor.line < head.line`) the normalized `endCh` is
`Number.MAX_SAFE_INTEGER`, so every token on the selection's last line is
included, whatever the selection's end character. -/
theorem C1_forward_selection_includes_all_last_line
    (lines : List (List Char)) (anchor head : Pos)
    (hfwd : anchor.line < head.line) (hcl : head.line < lines.length)
    (hbound : (lines.getD head.line []).length ≤ maxSafeInteger)
    (l : WikiLink) (hl : l ∈ findAllLinksInLine (lines.getD head.line [])) :
    ({ fromPos := ⟨head.line, l.startCh⟩, toPos := ⟨head.line, l.endCh⟩,
       text := toggleLink l } : Replacement)
      ∈ selectionReplacements lines anchor head := by
  have hgetd : lines.getD head.line [] = lines[head.line] := by
    simp [List.getD, List.getElem?_eq_getElem hcl]
  have hsl : selStartLine anchor head = anchor.line := by
    simp [selStartLine]
    omega
  have hel : selEndLine anchor head = head.line := by
    simp [selEndLine]
    omega
  have hec : selEndCh anchor head = maxSafeInteger := by
    simp [selEndCh, if_pos hfwd]
  unfold selectionReplacements
  apply List.mem_flatMap.mpr
  refine ⟨(head.line, lines[head.line]), ?_, ?_⟩
  · exact List.mem_enum_iff_getElem?.mpr (List.getElem?_eq_getElem hcl)
  · rw [if_neg (by rw [hsl, hel]; omega)]
    apply List.mem_map_of_mem
    apply List.mem_reverse.mpr
    unfold selectedInLine
    apply List.mem_filter.mpr
    refine ⟨by rw [← hgetd]; exact hl, ?_⟩
    rw [if_neg (by rw [hsl, hel]; omega), if_neg (by rw [hsl]; omega),
      if_pos (by rw [hel])]
    have hend : l.endCh ≤ (lines.getD head.line []).length :=
      (findAllLinks_mem_props hl).2.2
    rw [hec]
    simp
    omega

/-- Witness for C1 amended at the counterexample instance. -/
theorem C1_forward_selection_includes_all_last_line_witness :
    ({ fromPos := ⟨1, 3⟩, toPos := ⟨1, 8⟩,
       text := toggleLink (parseWikiLink ("[[x]]".toList) 3 8) } : Replacement)
      ∈ selectionReplacements ["ab".toList, "cd [[x]] z".toList] ⟨0, 0⟩ ⟨1, 1⟩ :=
  C1_forward_selection_includes_all_last_line
    ["ab".toList, "cd [[x]] z".toList] ⟨0, 0⟩ ⟨1, 1⟩
    (by decide) (by decide) (by decide)
    (parseWikiLink ("[[x]]".toList) 3 8) (by decide)

/-- C2 counterexample: swapping anchor and head changes the toggled set.
With anchor (0,0), head (1,3) the token `[[abc]]` on the last line is
toggled (forward `endCh` is MAX_SAFE_INTEGER); with anchor (1,3), head
(0,0) it is not (`endCh` becomes `max(3,0) = 3 < 7`). -/
theorem C2_swap_counterexample :
    selectionReplacements [[], "[[abc]]".toList] ⟨0, 0⟩ ⟨1, 3⟩
      ≠ selectionReplacements [[], "[[abc]]".toList] ⟨1, 3⟩ ⟨0, 0⟩ := by
  decide

/-- C2 amended: the line components are normalized symmetrically
(`startLine = min`, `endLine = max`, so `startLine <= endLine` always);
and for a same-line selection the character bounds are `min`/`max` of the
two endpoint characters, so the toggled set is the same whether anchor
precedes head or head precedes anchor.  For multi-line selections the
character bounds are not symmetric in anchor and head and the toggled
sets can differ. -/
theorem C2_normalization_and_same_line_symmetry
    (lines : List (List Char)) (anchor head : Pos) :
    (selStartLine anchor head = selStartLine head anchor ∧
      selEndLine anchor head = selEndLine head anchor ∧
      selStartLine anchor head ≤ selEndLine anchor head) ∧
    (anchor.line = head.line →
      selectionReplacements lines anchor head
        = selectionReplacements lines head anchor) := by
  have h1 : selStartLine anchor head = selStartLine head anchor := by
    unfold selStartLine
    omega
  have h2 : selEndLine anchor head = selEndLine head anchor := by
    unfold selEndLine
    omega
  refine ⟨⟨h1, h2, ?_⟩, ?_⟩
  · unfold selStartLine selEndLine
    omega
  · intro heq
    have hnc : ¬ head.line < head.line := Nat.lt_irrefl _
    have h3 : selStartCh anchor head = selStartCh head anchor := by
      unfold selStartCh
      rw [heq, if_neg hnc, if_neg hnc]
      omega
    have h4 : selEndCh anchor head = selEndCh head anchor := by
      unfold selEndCh
      rw [heq, if_neg hnc, if_neg hnc]
      omega
    unfold selectionReplacements selectedInLine
    simp only [h1, h2, h3, h4]

/-- Witness for C2 amended: same-line selections are symmetric. -/
theorem C2_normalization_and_same_line_symmetry_witness :
    selectionReplacements ["[[a]] [[b]]".toList] ⟨0, 11⟩ ⟨0, 0⟩
      = selectionReplacements ["[[a]] [[b]]".toList] ⟨0, 0⟩ ⟨0, 11⟩ :=
  (C2_normalization_and_same_line_symmetry
    ["[[a]] [[b]]".toList] ⟨0, 11⟩ ⟨0, 0⟩).2 rfl

theorem head?_append_or {α : Type} (a b : List α) :
    (a ++ b).head? = a.head?.or b.head? := by
  cases a <;> simp

theorem fwdScan_tail (cl cc : Nat) :
    ∀ (rest : List (List Char)) (i : Nat), cl < i →
      fwdScan cl cc rest i
        = ((List.enumFrom i rest).flatMap
            (fun p => (findAllLinksInLine p.2).map (fun l => (p.1, l)))).head? := by
  intro rest
  induction rest with
  | nil => intro i _; rfl
  | cons line t ih =>
    intro i hi
    unfold fwdScan
    rw [if_neg (by omega), ih (i + 1) (by omega)]
    rw [show List.enumFrom i (line :: t) = (i, line) :: List.enumFrom (i + 1) t
      from rfl]
    rw [show ((i, line) :: List.enumFrom (i + 1) t).flatMap
          (fun p => (findAllLinksInLine p.2).map (fun l => (p.1, l)))
        = (findAllLinksInLine line).map (fun l => (i, l))
          ++ (List.enumFrom (i + 1) t).flatMap
              (fun p => (findAllLinksInLine p.2).map (fun l => (p.1, l)))
      from rfl]
    rw [head?_append_or, List.head?_map]

theorem fwdScan_eq (lines : List (List Char)) (cl cc : Nat) :
    fwdScan cl cc (lines.drop cl) cl = (fwdCands lines cl cc).head? := by
  by_cases hcl : cl < lines.length
  · have hgetd : lines.getD cl [] = lines[cl] := by
      simp [List.getD, List.getElem?_eq_getElem hcl]
    rw [List.drop_eq_getElem_cons hcl]
    unfold fwdScan
    rw [if_pos rfl, fwdScan_tail cl cc (lines.drop (cl + 1)) (cl + 1) (by omega)]
    unfold fwdCands
    rw [head?_append_or, List.head?_map, find?_eq_head?_filter, hgetd]
  · have hgetd : lines.getD cl [] = [] := by
      simp [List.getD, List.getElem?_eq_none (by omega : lines.length ≤ cl)]
    have hd : lines.drop cl = [] := List.drop_eq_nil_of_le (by omega)
    have hd2 : lines.drop (cl + 1) = [] := List.drop_eq_nil_of_le (by omega)
    rw [hd]
    unfold fwdCands
    rw [hgetd, hd2]
    rfl

theorem bwdLineHit_eq (lines : List (List Char)) (cl cc i : Nat) :
    bwdLineHit lines cl cc i = (bwdLineCands lines cl cc i).head? := by
  unfold bwdLineHit bwdLineCands
  by_cases h : i = cl
  · rw [if_pos h, if_pos h, List.head?_map, find?_eq_head?_filter,
      List.filter_reverse, List.head?_reverse]
  · rw [if_neg h, if_neg h, List.head?_map, List.head?_reverse]

theorem bwdScan_eq (lines : List (List Char)) (cl cc : Nat) :
    ∀ i, bwdScan lines cl cc i
      = (bwdLineCands lines cl cc i
          ++ ((List.range i).reverse).flatMap (bwdLineCands lines cl cc)).head? := by
  intro i
  induction i with
  | zero =>
    show bwdLineHit lines cl cc 0 = _
    rw [bwdLineHit_eq]
    simp
  | succ j ih =>
    show (bwdLineHit lines cl cc (j + 1)).or (bwdScan lines cl cc j) = _
    rw [bwdLineHit_eq, ih]
    rw [show (List.range (j + 1)).reverse = j :: (List.range j).reverse by
      rw [List.range_succ]; simp]
    rw [show (j :: (List.range j).reverse).flatMap (bwdLineCands lines cl cc)
        = bwdLineCands lines cl cc j
          ++ ((List.range j).reverse).flatMap (bwdLineCands lines cl cc)
      from rfl]
    rw [head?_append_or, head?_append_or, head?_append_or]

/-- C4: when the cursor is inside no token, `findNearestLink` returns the
head of the forward candidate list (cursor line's tokens with
`startOffset >= cursorCh`, then all tokens of all subsequent lines in
order) and falls back to the head of the backward candidate list (cursor
line's tokens with `endOffset <= cursorCh` right to left, then preceding
lines' tokens right to left, lines descending) only when the forward list
is empty; if both are empty it reports none.  In particular, any forward
candidate beats every backward candidate, however close. -/
theorem C4_forward_scan_priority (lines : List (List Char)) (cursor : Pos)
    (hmiss : findLinkAtCursor (lines.getD cursor.line []) cursor.ch = none) :
    findNearestLink lines cursor.line cursor.ch
      = ((fwdCands lines cursor.line cursor.ch).head?).or
          ((bwdCands lines cursor.line cursor.ch).head?) := by
  unfold findNearestLink
  rw [fwdScan_eq]
  cases h : (fwdCands lines cursor.line cursor.ch).head? with
  | some r => rfl
  | none =>
    show bwdScan lines cursor.line cursor.ch cursor.line = _
    rw [bwdScan_eq]
    rfl

/-- Witness for C4: scenario 3 of the spec — cursor at (0,0) on a line
with no token, token on the next line found by the forward scan. -/
theorem C4_forward_scan_priority_witness :
    findNearestLink ["no links here".toList, "[[Target]]".toList] 0 0
      = ((fwdCands ["no links here".toList, "[[Target]]".toList] 0 0).head?).or
          ((bwdCands ["no links here".toList, "[[Target]]".toList] 0 0).head?) :=
  C4_forward_scan_priority ["no links here".toList, "[[Target]]".toList]
    ⟨0, 0⟩ (by decide)

end TT
